import Mathlib

/-
Verification development for the godep tool (src/src/godep.go).

The program reads Go source files, groups them into packages, records
the import targets of every package, detects the files of the entry-point
package "main" that define the entry function, and prints build rules.

The embedding below mirrors the source one declaration at a time:
  * Package            is the Go struct Package (files vector, import map,
                       hasMain flag; the flag is written once and never read).
  * Reg                models the global map `packages`; the Go map is
                       unordered, here a registry value fixes one iteration
                       order, and order-dependence is quantified explicitly.
  * mapLookup          models `m[k]` (comma-ok form) on a string-keyed map.
  * mapUpdate          models assignment to an existing key.
  * mapInsert          models `m[k] = v`.
  * HandleFile         mirrors HandleFile plus the ImportVisitor walk: the
                       visitor adds each import path to the import map if it
                       is not present yet.
  * baseNameOf         mirrors addRoot: strings.Split(filename, ".", -1)[0].
  * FindMain           mirrors FindMain plus MainCheckVisitor; the second
                       ParseFile result error is discarded by the source
                       (`file, _ := parser.ParseFile(fname, nil, 0)`), which
                       is mirrored by the unread fullOk field.
  * PrintNeededItems / PrintNeeded  mirror PrintNeeded.
  * PrintFListItems / PrintFList    mirror PrintFList.
  * PrintDeps          mirrors PrintDeps, producing one structured Line per
                       printed line.
  * registerAll / run  mirror main: parse failure in the first loop prints
                       to stderr and exits 1, giving no output at all.
-/

set_option autoImplicit false

namespace Godep

/-- One entry of the global `packages` map: ordered member files, import
targets in first-seen order without duplicates, and the hasMain flag that the
source never reads. -/
structure Package where
  files : List String
  pkgs : List String
  hasMain : Bool
deriving DecidableEq, Repr

/-- The registry, the global `packages` map. A list value fixes one concrete
iteration order of the underlying unordered Go map. -/
abbrev Reg := List (String × Package)

/-- Lookup `m[k]` on a string-keyed map, first matching entry. -/
def mapLookup {α : Type} : List (String × α) → String → Option α
  | [], _ => none
  | (k, v) :: rest, key => if k = key then some v else mapLookup rest key

/-- Assignment to a key that may already be present: replace the value of
every entry holding the key. -/
def mapUpdate {α : Type} : List (String × α) → String → (α → α) → List (String × α)
  | [], _, _ => []
  | (k, v) :: rest, key, f =>
    if k = key then (k, f v) :: mapUpdate rest key f
    else (k, v) :: mapUpdate rest key f

/-- Assignment `m[k] = v`: replace the value if the key is present, append a
new entry otherwise. -/
def mapInsert {α : Type} (m : List (String × α)) (key : String) (v : α) : List (String × α) :=
  if (mapLookup m key).isSome then mapUpdate m key (fun _ => v) else m ++ [(key, v)]

/-- Body of ImportVisitor.Visit for one ImportSpec node: add the cleaned
path to the import map of the package when it is not present yet. -/
def addImport (pkg : Package) (ppath : String) : Package :=
  if ppath ∈ pkg.pkgs then pkg else { pkg with pkgs := pkg.pkgs ++ [ppath] }

/-- HandleFile: append the file to its package (creating the package on first
sight), then walk the import specs with ImportVisitor. The `imports` argument
stands for the cleaned import paths of the file in source order. -/
def HandleFile (reg : Reg) (fname pkgname : String) (imports : List String) : Reg :=
  let reg1 :=
    if (mapLookup reg pkgname).isSome then
      mapUpdate reg pkgname (fun pkg => { pkg with files := pkg.files ++ [fname] })
    else
      reg ++ [(pkgname, { files := [fname], pkgs := [], hasMain := false })]
  mapUpdate reg1 pkgname (fun pkg => imports.foldl addImport pkg)

/-- Go strings.Split with a one-character separator and count -1, on the
character list of the string: splits at every occurrence of the separator,
and the empty input yields one empty field. -/
def goSplit (sep : Char) : List Char → List (List Char)
  | [] => [[]]
  | c :: rest =>
    if c = sep then [] :: goSplit sep rest
    else
      match goSplit sep rest with
      | [] => [[c]]
      | h :: t => (c :: h) :: t

/-- The basename computed by addRoot: `strings.Split(filename, ".", -1)[0]`,
the field of the split before the first period. -/
def baseNameOf (filename : String) : String :=
  String.mk ((goSplit '.' filename.data).headD filename.data)

/-- addRoot: `roots[filename] = basename`. -/
def addRoot (roots : List (String × String)) (filename : String) : List (String × String) :=
  mapInsert roots filename (baseNameOf filename)

/-- What the source analyzer yields for one file: the declared package name
and cleaned import paths from the first, ImportsOnly parse; whether that
first parse succeeds; whether the AST of the second, full parse contains a
`func main` declaration; and whether that second parse succeeds. The source
discards the second parse error, so fullOk is read nowhere below. -/
structure FileAnalysis where
  pkgname : String
  imports : List String
  importsOk : Bool
  declaresMain : Bool
  fullOk : Bool
deriving DecidableEq, Repr

/-- Result of re-parsing one file inside FindMain and walking the AST with
MainCheckVisitor: whether a `func main` declaration is found. The parse error
of this second parse is discarded by the source, so the fullOk flag of the
analysis is not consulted. -/
def wantsRoot (inputs : List (String × FileAnalysis)) (fname : String) : Bool :=
  match mapLookup inputs fname with
  | some fa => fa.declaresMain
  | none => false

/-- FindMain: for every file of the package "main", re-parse it (the parse
error is discarded) and record it in `roots` when it declares `func main`. -/
def FindMain (reg : Reg) (inputs : List (String × FileAnalysis)) : List (String × String) :=
  match mapLookup reg "main" with
  | some pkg =>
    pkg.files.foldl
      (fun roots fname => if wantsRoot inputs fname then addRoot roots fname else roots)
      []
  | none => []

/-- Inner loop of PrintNeeded over one import map: print every import target
that is not a registered package and not yet in the `done` set. The emitted
list doubles as the `done` set, since the source inserts into `done` exactly
when it prints. -/
def neededInner (reg : Reg) (done : List String) (pkgs : List String) : List String :=
  pkgs.foldl
    (fun done pkgname =>
      if mapLookup reg pkgname = none ∧ pkgname ∉ done then done ++ [pkgname] else done)
    done

/-- The import targets printed by PrintNeeded, in print order. -/
def PrintNeededItems (reg : Reg) : List String :=
  reg.foldl (fun done p => neededInner reg done p.2.pkgs) []

/-- The full text printed by one PrintNeeded call: the prefix, then every
item followed by the per-item suffix and a space, then a newline. -/
def PrintNeeded (pre ppost : String) (reg : Reg) : String :=
  pre ++ String.join ((PrintNeededItems reg).map (fun s => s ++ ppost ++ " ")) ++ "\n"

/-- Inner loop of PrintFList over one file vector: print every file not yet
in the `done` set; emitted list and `done` set coincide. -/
def flInner (done : List String) (files : List String) : List String :=
  files.foldl (fun done fname => if fname ∈ done then done else done ++ [fname]) done

/-- The files printed by PrintFList, in print order. -/
def PrintFListItems (reg : Reg) : List String :=
  reg.foldl (fun done p => flInner done p.2.files) []

/-- The full text printed by PrintFList. -/
def PrintFList (reg : Reg) : String :=
  "GOFILES = " ++ String.join ((PrintFListItems reg).map (fun s => s ++ " ")) ++ "\n"

/-- One printed line of PrintDeps:
`pkgRule p files deps` is the line `p.${O}: files... deps...` of the first
loop; `appSelf app` is the line `app: app.${O}`; and
`rootRule app fname commons deps` is the line
`app.${O}: fname commons... deps...`. -/
inductive Line where
  | pkgRule (pkgname : String) (files : List String) (deps : List String)
  | appSelf (app : String)
  | rootRule (app : String) (fname : String) (commons : List String) (deps : List String)
deriving DecidableEq, Repr

/-- The rule line PrintDeps emits for one non-main registry entry: all member
files, then every import target that is registered or, with -n, any target. -/
def pkgRuleOf (reg : Reg) (showNeeded : Bool) (p : String × Package) : Line :=
  Line.pkgRule p.1 p.2.files
    (p.2.pkgs.filter (fun pkgname => (mapLookup reg pkgname).isSome || showNeeded))

/-- First loop of PrintDeps: one rule per registry entry other than "main". -/
def depsPart1 (reg : Reg) (showNeeded : Bool) : List Line :=
  reg.foldl
    (fun acc p => if p.1 ≠ "main" then acc ++ [pkgRuleOf reg showNeeded p] else acc)
    []

/-- Import references of one root rule: a target is printed when its package
is registered, or when -n is set and the target was not printed yet within
this rule; the `done` set is extended in both cases. -/
def rootDeps (reg : Reg) (pkgs : List String) (showNeeded : Bool) : List String :=
  (pkgs.foldl
    (fun (st : List String × List String) pkgname =>
      if (mapLookup reg pkgname).isSome ∨ (showNeeded = true ∧ pkgname ∉ st.2) then
        (st.1 ++ [pkgname], st.2 ++ [pkgname])
      else st)
    ([], [])).1

/-- Loop of PrintDeps over the files of "main" that both prints the line
`app: app.${O}` for every root file and pushes every non-root file onto the
`common` vector. First component: printed lines; second: the common vector. -/
def mainFirstLoop (roots : List (String × String)) (files : List String) :
    List Line × List String :=
  files.foldl
    (fun st fname =>
      match mapLookup roots fname with
      | some app => (st.1 ++ [Line.appSelf app], st.2)
      | none => (st.1, st.2 ++ [fname]))
    ([], [])

/-- PrintDeps: the per-package rules for every package other than "main",
then, when "main" is registered, the `app: app.${O}` lines of the first main
loop, then one root rule per root file referencing the file itself, the whole
common vector, and the import targets of "main". -/
def PrintDeps (reg : Reg) (roots : List (String × String)) (showNeeded : Bool) : List Line :=
  match mapLookup reg "main" with
  | none => depsPart1 reg showNeeded
  | some mainPkg =>
    let fl := mainFirstLoop roots mainPkg.files
    depsPart1 reg showNeeded ++ fl.1 ++
      mainPkg.files.filterMap
        (fun fname =>
          (mapLookup roots fname).map
            (fun app => Line.rootRule app fname fl.2 (rootDeps reg mainPkg.pkgs showNeeded)))

/-- First loop of main: parse every file with ImportsOnly; on error print to
stderr and exit 1, otherwise HandleFile it. -/
def registerAll (reg : Reg) : List (String × FileAnalysis) → Except Unit Reg
  | [] => Except.ok reg
  | (fname, fa) :: rest =>
    if fa.importsOk then registerAll (HandleFile reg fname fa.pkgname fa.imports) rest
    else Except.error ()

/-- Everything main prints to standard output, in print order. -/
structure Output where
  externalLine : Option String
  commentLine : String
  fileLine : String
  deps : List Line
deriving DecidableEq, Repr

/-- The whole run of main after flag parsing: register every file (exiting
with status 1 and no output on the first ImportsOnly parse failure), find the
roots, and print the four passes. -/
def run (inputs : List (String × FileAnalysis)) (showNeeded : Bool) : Except Unit Output :=
  match registerAll [] inputs with
  | Except.error _ => Except.error ()
  | Except.ok reg =>
    let roots := FindMain reg inputs
    Except.ok
      { externalLine := if showNeeded then some (PrintNeeded ".EXTERNAL: " ".${O}" reg) else none
        commentLine := PrintNeeded "# external packages: " "" reg
        fileLine := PrintFList reg
        deps := PrintDeps reg roots showNeeded }

/-- A bare sequence of successfully parsed unit registrations, as triples of
file name, package name and import paths. -/
def registerSeq (regs : List (String × String × List String)) : Reg :=
  regs.foldl (fun reg r => HandleFile reg r.1 r.2.1 r.2.2) []

/-- Import-target list of a registered package, empty when absent. -/
def pkgsOf (reg : Reg) (name : String) : List String :=
  ((mapLookup reg name).map Package.pkgs).getD []

/-- Member-file list of a registered package, empty when absent. -/
def filesOf (reg : Reg) (name : String) : List String :=
  ((mapLookup reg name).map Package.files).getD []

/-! Concrete example inputs used for instantiations below. -/

/-- Three files, the first and third in package a, the second in package b:
discovery order interleaves the two packages. -/
def regInterleaved : Reg :=
  registerSeq [("f1.go", "a", []), ("f2.go", "b", []), ("f3.go", "a", [])]

/-- Two packages each importing one unregistered target, listed in one order. -/
def regOrderA : Reg :=
  [("a", { files := ["a.go"], pkgs := ["x"], hasMain := false }),
   ("b", { files := ["b.go"], pkgs := ["y"], hasMain := false })]

/-- The same registry contents as regOrderA, listed in the other order. -/
def regOrderB : Reg :=
  [("b", { files := ["b.go"], pkgs := ["y"], hasMain := false }),
   ("a", { files := ["a.go"], pkgs := ["x"], hasMain := false })]

/-- An entry-point package with two roots and one shared common file. -/
def regMainW : Reg :=
  [("main", { files := ["m1.go", "shared.go", "m2.go"], pkgs := ["fmt"], hasMain := false })]

/-- Roots map for regMainW: the two root files with their basenames. -/
def rootsMainW : List (String × String) :=
  [("m1.go", "m1"), ("m2.go", "m2")]

/-- A library package importing one registered and one unregistered target. -/
def regLibW : Reg :=
  [("util", { files := ["u1.go", "u2.go"], pkgs := ["dep", "ext"], hasMain := false }),
   ("dep", { files := ["d.go"], pkgs := [], hasMain := false })]

/-- Analyses for two files of package main whose names share the prefix
before the first period, both declaring the entry function. -/
def inputsDup : List (String × FileAnalysis) :=
  [("main.go", { pkgname := "main", imports := [], importsOk := true,
                 declaresMain := true, fullOk := true }),
   ("main.v2.go", { pkgname := "main", imports := [], importsOk := true,
                    declaresMain := true, fullOk := true })]

/-- The registry built from inputsDup. -/
def regDup : Reg :=
  registerSeq [("main.go", "main", []), ("main.v2.go", "main", [])]

/-- One file of package main whose imports-only parse succeeds but whose
second, full parse fails; it declares no entry function that the partial
walk would see. -/
def inputsFullFail : List (String × FileAnalysis) :=
  [("a.go", { pkgname := "main", imports := [], importsOk := true,
              declaresMain := false, fullOk := false })]

/-- One file whose imports-only parse fails. -/
def inputsBad : List (String × FileAnalysis) :=
  [("a.go", { pkgname := "main", imports := [], importsOk := false,
              declaresMain := false, fullOk := false })]

/-- A pre-existing registry holding one root file of package main. -/
def regRootOnly : Reg :=
  [("main", { files := ["root.go"], pkgs := [], hasMain := false })]

/-- Roots map holding the single root of regRootOnly. -/
def rootsRootOnly : List (String × String) :=
  [("root.go", "root")]

/-! Basic facts about the map model. -/

theorem mapLookup_eq_none_iff {α : Type} (m : List (String × α)) (k : String) :
    mapLookup m k = none ↔ ∀ p ∈ m, p.1 ≠ k := by
  induction m with
  | nil => simp [mapLookup]
  | cons q rest ih =>
    obtain ⟨a, v⟩ := q
    by_cases h : a = k
    · subst h
      simp [mapLookup]
    · simp [mapLookup, h, ih]

theorem mem_of_mapLookup {α : Type} {m : List (String × α)} {k : String} {v : α}
    (h : mapLookup m k = some v) : (k, v) ∈ m := by
  induction m with
  | nil => simp [mapLookup] at h
  | cons q rest ih =>
    obtain ⟨a, w⟩ := q
    by_cases ha : a = k
    · subst ha
      simp [mapLookup] at h
      simp [h]
    · simp [mapLookup, ha] at h
      simp [ih h]

theorem mapLookup_append {α : Type} (m l : List (String × α)) (k : String) :
    mapLookup (m ++ l) k =
      match mapLookup m k with
      | some v => some v
      | none => mapLookup l k := by
  induction m with
  | nil => simp [mapLookup]
  | cons q rest ih =>
    obtain ⟨a, v⟩ := q
    by_cases ha : a = k
    · subst ha
      simp [mapLookup]
    · simp [mapLookup, ha, ih]

theorem mapLookup_mapUpdate {α : Type} (m : List (String × α)) (k n : String) (f : α → α) :
    mapLookup (mapUpdate m k f) n =
      if n = k then (mapLookup m n).map f else mapLookup m n := by
  induction m with
  | nil => simp [mapLookup, mapUpdate]
  | cons q rest ih =>
    obtain ⟨a, v⟩ := q
    by_cases hak : a = k
    · subst hak
      by_cases han : a = n
      · subst han
        simp [mapUpdate, mapLookup]
      · simp [mapUpdate, mapLookup, han, ih]
    · by_cases han : a = n
      · subst han
        simp [mapUpdate, mapLookup, hak]
      · simp [mapUpdate, mapLookup, hak, han, ih]

theorem mapLookup_mapInsert_self {α : Type} (m : List (String × α)) (k : String) (v : α) :
    mapLookup (mapInsert m k v) k = some v := by
  unfold mapInsert
  by_cases h : (mapLookup m k).isSome
  · rw [if_pos h, mapLookup_mapUpdate, if_pos rfl]
    obtain ⟨w, hw⟩ := Option.isSome_iff_exists.mp h
    simp [hw]
  · rw [if_neg h, mapLookup_append]
    have : mapLookup m k = none := Option.not_isSome_iff_eq_none.mp h
    simp [this, mapLookup]

theorem mapLookup_mapInsert_ne {α : Type} (m : List (String × α)) (k n : String) (v : α)
    (h : n ≠ k) : mapLookup (mapInsert m k v) n = mapLookup m n := by
  unfold mapInsert
  by_cases hs : (mapLookup m k).isSome
  · rw [if_pos hs, mapLookup_mapUpdate, if_neg h]
  · rw [if_neg hs, mapLookup_append]
    cases hm : mapLookup m n with
    | some w => simp
    | none =>
      simp [mapLookup]
      exact fun hkn => h hkn.symm

/-! The field of the Go split before the first separator. -/

theorem goSplit_eq_takeWhile_cons (sep : Char) (l : List Char) :
    ∃ t, goSplit sep l = l.takeWhile (fun c => c != sep) :: t := by
  induction l with
  | nil => exact ⟨[], rfl⟩
  | cons c rest ih =>
    obtain ⟨t, ht⟩ := ih
    by_cases h : c = sep
    · subst h
      refine ⟨goSplit c rest, ?_⟩
      simp [goSplit, List.takeWhile_cons]
    · refine ⟨t, ?_⟩
      simp only [goSplit, if_neg h, ht, List.takeWhile_cons]
      have : (c != sep) = true := by simp [h]
      simp [this]

theorem baseNameOf_eq_takeWhile (f : String) :
    baseNameOf f = String.mk (f.data.takeWhile (fun c => c != '.')) := by
  obtain ⟨t, ht⟩ := goSplit_eq_takeWhile_cons '.' f.data
  simp [baseNameOf, ht]

/-! Generic shape of the guarded emission folds. -/

theorem foldl_guard_mem {α β : Type} (c : α → Prop) [DecidablePred c] (g : α → β)
    (l : List α) (acc : List β) (y : β) :
    y ∈ l.foldl (fun acc x => if c x then acc ++ [g x] else acc) acc ↔
      y ∈ acc ∨ ∃ x, x ∈ l ∧ c x ∧ y = g x := by
  induction l generalizing acc with
  | nil => simp
  | cons a l ih =>
    by_cases h : c a
    · simp only [List.foldl_cons, if_pos h, ih, List.mem_append, List.mem_singleton,
        List.mem_cons, List.not_mem_nil, or_false]
      constructor
      · rintro (⟨hy | hy⟩ | ⟨x, hx, hcx, hyx⟩)
        · exact Or.inl hy
        · exact Or.inr ⟨a, Or.inl rfl, h, hy⟩
        · exact Or.inr ⟨x, Or.inr hx, hcx, hyx⟩
      · rintro (hy | ⟨x, (rfl | hx), hcx, hyx⟩)
        · exact Or.inl (Or.inl hy)
        · exact Or.inl (Or.inr hyx)
        · exact Or.inr ⟨x, hx, hcx, hyx⟩
    · simp only [List.foldl_cons, if_neg h, ih, List.mem_cons]
      constructor
      · rintro (hy | ⟨x, hx, hcx, hyx⟩)
        · exact Or.inl hy
        · exact Or.inr ⟨x, Or.inr hx, hcx, hyx⟩
      · rintro (hy | ⟨x, (rfl | hx), hcx, hyx⟩)
        · exact Or.inl hy
        · exact absurd hcx h
        · exact Or.inr ⟨x, hx, hcx, hyx⟩

/-! Characterization of the PrintNeeded pass. -/

theorem mem_neededInner (reg : Reg) (pkgs : List String) (done : List String) (x : String) :
    x ∈ neededInner reg done pkgs ↔ x ∈ done ∨ (x ∈ pkgs ∧ mapLookup reg x = none) := by
  induction pkgs generalizing done with
  | nil => simp [neededInner]
  | cons q rest ih =>
    have step : neededInner reg done (q :: rest) =
        neededInner reg
          (if mapLookup reg q = none ∧ q ∉ done then done ++ [q] else done) rest := rfl
    rw [step]
    by_cases hq : mapLookup reg q = none ∧ q ∉ done
    · rw [if_pos hq, ih]
      constructor
      · rintro (hd | ⟨hr, hn⟩)
        · rcases List.mem_append.mp hd with hd | hd
          · exact Or.inl hd
          · rcases List.mem_singleton.mp hd with rfl
            exact Or.inr ⟨List.mem_cons_self _ _, hq.1⟩
        · exact Or.inr ⟨List.mem_cons_of_mem _ hr, hn⟩
      · rintro (hd | ⟨hr, hn⟩)
        · exact Or.inl (List.mem_append.mpr (Or.inl hd))
        · rcases List.mem_cons.mp hr with rfl | hr
          · exact Or.inl (List.mem_append.mpr (Or.inr (List.mem_singleton.mpr rfl)))
          · exact Or.inr ⟨hr, hn⟩
    · rw [if_neg hq, ih]
      constructor
      · rintro (hd | ⟨hr, hn⟩)
        · exact Or.inl hd
        · exact Or.inr ⟨List.mem_cons_of_mem _ hr, hn⟩
      · rintro (hd | ⟨hr, hn⟩)
        · exact Or.inl hd
        · rcases List.mem_cons.mp hr with rfl | hr
          · rcases not_and_or.mp hq with h1 | h2
            · exact absurd hn h1
            · exact Or.inl (not_not.mp h2)
          · exact Or.inr ⟨hr, hn⟩

theorem nodup_neededInner (reg : Reg) (pkgs : List String) (done : List String)
    (h : done.Nodup) : (neededInner reg done pkgs).Nodup := by
  induction pkgs generalizing done with
  | nil => exact h
  | cons q rest ih =>
    have step : neededInner reg done (q :: rest) =
        neededInner reg
          (if mapLookup reg q = none ∧ q ∉ done then done ++ [q] else done) rest := rfl
    rw [step]
    by_cases hq : mapLookup reg q = none ∧ q ∉ done
    · rw [if_pos hq]
      refine ih _ ?_
      simp [List.nodup_append, h, hq.2]
    · rw [if_neg hq]
      exact ih _ h

theorem mem_printNeededAux (reg : Reg) (l : List (String × Package)) (done : List String)
    (x : String) :
    x ∈ l.foldl (fun done p => neededInner reg done p.2.pkgs) done ↔
      x ∈ done ∨ ((∃ p, p ∈ l ∧ x ∈ p.2.pkgs) ∧ mapLookup reg x = none) := by
  induction l generalizing done with
  | nil => simp
  | cons a l ih =>
    rw [List.foldl_cons, ih, mem_neededInner]
    constructor
    · rintro ((hd | ⟨ha, hn⟩) | ⟨⟨p, hp, hx⟩, hn⟩)
      · exact Or.inl hd
      · exact Or.inr ⟨⟨a, List.mem_cons_self _ _, ha⟩, hn⟩
      · exact Or.inr ⟨⟨p, List.mem_cons_of_mem _ hp, hx⟩, hn⟩
    · rintro (hd | ⟨⟨p, hp, hx⟩, hn⟩)
      · exact Or.inl (Or.inl hd)
      · rcases List.mem_cons.mp hp with rfl | hp
        · exact Or.inl (Or.inr ⟨hx, hn⟩)
        · exact Or.inr ⟨⟨p, hp, hx⟩, hn⟩

theorem mem_PrintNeededItems (reg : Reg) (x : String) :
    x ∈ PrintNeededItems reg ↔
      (∃ p, p ∈ reg ∧ x ∈ p.2.pkgs) ∧ mapLookup reg x = none := by
  have h := mem_printNeededAux reg reg [] x
  simpa [PrintNeededItems] using h

theorem nodup_PrintNeededItems (reg : Reg) : (PrintNeededItems reg).Nodup := by
  have aux : ∀ (l : List (String × Package)) (done : List String), done.Nodup →
      (l.foldl (fun done p => neededInner reg done p.2.pkgs) done).Nodup := by
    intro l
    induction l with
    | nil => exact fun done h => h
    | cons a l ih =>
      intro done h
      exact ih _ (nodup_neededInner reg a.2.pkgs done h)
  exact aux reg [] List.nodup_nil

/-! Characterization of the PrintFList pass. -/

theorem mem_flInner (done files : List String) (x : String) :
    x ∈ flInner done files ↔ x ∈ done ∨ x ∈ files := by
  induction files generalizing done with
  | nil => simp [flInner]
  | cons f fs ih =>
    have step : flInner done (f :: fs) =
        flInner (if f ∈ done then done else done ++ [f]) fs := rfl
    rw [step]
    by_cases hf : f ∈ done
    · rw [if_pos hf, ih]
      constructor
      · rintro (hd | hr)
        · exact Or.inl hd
        · exact Or.inr (List.mem_cons_of_mem _ hr)
      · rintro (hd | hr)
        · exact Or.inl hd
        · rcases List.mem_cons.mp hr with rfl | hr
          · exact Or.inl hf
          · exact Or.inr hr
    · rw [if_neg hf, ih]
      constructor
      · rintro (hd | hr)
        · rcases List.mem_append.mp hd with hd | hd
          · exact Or.inl hd
          · exact Or.inr (List.mem_cons.mpr (Or.inl (List.mem_singleton.mp hd)))
        · exact Or.inr (List.mem_cons_of_mem _ hr)
      · rintro (hd | hr)
        · exact Or.inl (List.mem_append.mpr (Or.inl hd))
        · rcases List.mem_cons.mp hr with rfl | hr
          · exact Or.inl (List.mem_append.mpr (Or.inr (List.mem_singleton.mpr rfl)))
          · exact Or.inr hr

theorem nodup_flInner (done files : List String) (h : done.Nodup) :
    (flInner done files).Nodup := by
  induction files generalizing done with
  | nil => exact h
  | cons f fs ih =>
    have step : flInner done (f :: fs) =
        flInner (if f ∈ done then done else done ++ [f]) fs := rfl
    rw [step]
    by_cases hf : f ∈ done
    · rw [if_pos hf]
      exact ih _ h
    · rw [if_neg hf]
      refine ih _ ?_
      simp [List.nodup_append, h, hf]

theorem mem_PrintFListItems (reg : Reg) (x : String) :
    x ∈ PrintFListItems reg ↔ ∃ p, p ∈ reg ∧ x ∈ p.2.files := by
  have aux : ∀ (l : List (String × Package)) (done : List String),
      x ∈ l.foldl (fun done p => flInner done p.2.files) done ↔
        x ∈ done ∨ ∃ p, p ∈ l ∧ x ∈ p.2.files := by
    intro l
    induction l with
    | nil => simp
    | cons a l ih =>
      intro done
      rw [List.foldl_cons, ih, mem_flInner]
      constructor
      · rintro ((hd | ha) | ⟨p, hp, hx⟩)
        · exact Or.inl hd
        · exact Or.inr ⟨a, List.mem_cons_self _ _, ha⟩
        · exact Or.inr ⟨p, List.mem_cons_of_mem _ hp, hx⟩
      · rintro (hd | ⟨p, hp, hx⟩)
        · exact Or.inl (Or.inl hd)
        · rcases List.mem_cons.mp hp with rfl | hp
          · exact Or.inl (Or.inr hx)
          · exact Or.inr ⟨p, hp, hx⟩
  have h := aux reg []
  simpa [PrintFListItems] using h

theorem nodup_PrintFListItems (reg : Reg) : (PrintFListItems reg).Nodup := by
  have aux : ∀ (l : List (String × Package)) (done : List String), done.Nodup →
      (l.foldl (fun done p => flInner done p.2.files) done).Nodup := by
    intro l
    induction l with
    | nil => exact fun done h => h
    | cons a l ih => exact fun done h => ih _ (nodup_flInner done a.2.files h)
  exact aux reg [] List.nodup_nil

/-! Characterization of the PrintDeps pass. -/

theorem mainFirstLoop_aux (roots : List (String × String)) (files : List String)
    (st : List Line × List String) :
    files.foldl
      (fun st fname =>
        match mapLookup roots fname with
        | some app => (st.1 ++ [Line.appSelf app], st.2)
        | none => (st.1, st.2 ++ [fname])) st
    = (st.1 ++ files.filterMap (fun f => (mapLookup roots f).map Line.appSelf),
       st.2 ++ files.filter (fun f => (mapLookup roots f).isNone)) := by
  induction files generalizing st with
  | nil => simp
  | cons f fs ih =>
    cases h : mapLookup roots f with
    | some app => simp [List.foldl_cons, h, ih, List.filterMap_cons, List.filter_cons]
    | none => simp [List.foldl_cons, h, ih, List.filterMap_cons, List.filter_cons]

theorem mainFirstLoop_eq (roots : List (String × String)) (files : List String) :
    mainFirstLoop roots files =
      (files.filterMap (fun f => (mapLookup roots f).map Line.appSelf),
       files.filter (fun f => (mapLookup roots f).isNone)) := by
  have h := mainFirstLoop_aux roots files ([], [])
  simpa [mainFirstLoop] using h

theorem mem_depsPart1 (reg : Reg) (sn : Bool) (y : Line) :
    y ∈ depsPart1 reg sn ↔ ∃ p, p ∈ reg ∧ p.1 ≠ "main" ∧ y = pkgRuleOf reg sn p := by
  have h := foldl_guard_mem (fun p : String × Package => p.1 ≠ "main") (pkgRuleOf reg sn)
    reg [] y
  simpa [depsPart1] using h

theorem printDeps_eq {reg : Reg} {mainPkg : Package} (roots : List (String × String))
    (sn : Bool) (h : mapLookup reg "main" = some mainPkg) :
    PrintDeps reg roots sn =
      depsPart1 reg sn ++
        mainPkg.files.filterMap (fun f => (mapLookup roots f).map Line.appSelf) ++
        mainPkg.files.filterMap
          (fun fname =>
            (mapLookup roots fname).map
              (fun app =>
                Line.rootRule app fname
                  (mainPkg.files.filter (fun f => (mapLookup roots f).isNone))
                  (rootDeps reg mainPkg.pkgs sn))) := by
  simp only [PrintDeps, h, mainFirstLoop_eq]

theorem rootRule_mem_PrintDeps {reg : Reg} {mainPkg : Package}
    (roots : List (String × String)) (sn : Bool) (h : mapLookup reg "main" = some mainPkg)
    {f app : String} (hf : f ∈ mainPkg.files) (ha : mapLookup roots f = some app) :
    Line.rootRule app f (mainPkg.files.filter (fun c => (mapLookup roots c).isNone))
      (rootDeps reg mainPkg.pkgs sn) ∈ PrintDeps reg roots sn := by
  rw [printDeps_eq roots sn h]
  refine List.mem_append.mpr (Or.inr ?_)
  exact List.mem_filterMap.mpr ⟨f, hf, by rw [ha]; rfl⟩

theorem rootRule_mem_PrintDeps_inv {reg : Reg} {mainPkg : Package}
    {roots : List (String × String)} {sn : Bool} (h : mapLookup reg "main" = some mainPkg)
    {app f : String} {com deps : List String}
    (hm : Line.rootRule app f com deps ∈ PrintDeps reg roots sn) :
    f ∈ mainPkg.files ∧ mapLookup roots f = some app ∧
      com = mainPkg.files.filter (fun c => (mapLookup roots c).isNone) ∧
      deps = rootDeps reg mainPkg.pkgs sn := by
  rw [printDeps_eq roots sn h] at hm
  rcases List.mem_append.mp hm with hm | hm
  · rcases List.mem_append.mp hm with hm | hm
    · rcases (mem_depsPart1 reg sn _).mp hm with ⟨p, _, _, hy⟩
      simp [pkgRuleOf] at hy
    · rcases List.mem_filterMap.mp hm with ⟨x, _, hx⟩
      rcases Option.map_eq_some'.mp hx with ⟨a, _, hax⟩
      simp at hax
  · rcases List.mem_filterMap.mp hm with ⟨x, hx, hmap⟩
    rcases Option.map_eq_some'.mp hmap with ⟨a, hxa, heq⟩
    have h1 : app = a ∧ f = x ∧
        com = mainPkg.files.filter (fun c => (mapLookup roots c).isNone) ∧
        deps = rootDeps reg mainPkg.pkgs sn := by
      have := heq
      injection this with e1 e2 e3 e4
      exact ⟨e1.symm, e2.symm, e3.symm, e4.symm⟩
    rcases h1 with ⟨rfl, rfl, rfl, rfl⟩
    exact ⟨hx, hxa, rfl, rfl⟩

theorem appSelf_not_mem_part1 {reg : Reg} {sn : Bool} {app : String}
    (hm : Line.appSelf app ∈ depsPart1 reg sn) : False := by
  rcases (mem_depsPart1 reg sn _).mp hm with ⟨p, _, _, hy⟩
  simp [pkgRuleOf] at hy

/-! Effect of HandleFile on the registry. -/

theorem files_foldl_addImport (imports : List String) (pkg : Package) :
    (imports.foldl addImport pkg).files = pkg.files := by
  induction imports generalizing pkg with
  | nil => rfl
  | cons i is ih =>
    rw [List.foldl_cons, ih, addImport]
    split <;> rfl

theorem mem_pkgs_foldl_addImport (imports : List String) (pkg : Package) (q : String) :
    q ∈ (imports.foldl addImport pkg).pkgs ↔ q ∈ pkg.pkgs ∨ q ∈ imports := by
  induction imports generalizing pkg with
  | nil => simp
  | cons i is ih =>
    rw [List.foldl_cons, ih]
    unfold addImport
    by_cases h : i ∈ pkg.pkgs
    · rw [if_pos h]
      constructor
      · rintro (hq | hq)
        · exact Or.inl hq
        · exact Or.inr (List.mem_cons_of_mem _ hq)
      · rintro (hq | hq)
        · exact Or.inl hq
        · rcases List.mem_cons.mp hq with rfl | hq
          · exact Or.inl h
          · exact Or.inr hq
    · rw [if_neg h]
      constructor
      · rintro (hq | hq)
        · rcases List.mem_append.mp hq with hq | hq
          · exact Or.inl hq
          · exact Or.inr (List.mem_cons.mpr (Or.inl (List.mem_singleton.mp hq)))
        · exact Or.inr (List.mem_cons_of_mem _ hq)
      · rintro (hq | hq)
        · exact Or.inl (List.mem_append.mpr (Or.inl hq))
        · rcases List.mem_cons.mp hq with rfl | hq
          · exact Or.inl (List.mem_append.mpr (Or.inr (List.mem_singleton.mpr rfl)))
          · exact Or.inr hq

theorem mapLookup_HandleFile_self (reg : Reg) (fname pkgname : String)
    (imports : List String) :
    ∃ pkg0 : Package,
      mapLookup (HandleFile reg fname pkgname imports) pkgname =
        some (imports.foldl addImport pkg0) ∧
      pkg0.files = filesOf reg pkgname ++ [fname] ∧
      pkg0.pkgs = pkgsOf reg pkgname := by
  unfold HandleFile
  cases hs : mapLookup reg pkgname with
  | some pkg =>
    have hcond : (some pkg : Option Package).isSome = true := rfl
    refine ⟨{ pkg with files := pkg.files ++ [fname] }, ?_, ?_, ?_⟩
    · rw [mapLookup_mapUpdate, if_pos rfl, if_pos hcond, mapLookup_mapUpdate, if_pos rfl, hs]
      rfl
    · simp [filesOf, hs]
    · simp [pkgsOf, hs]
  | none =>
    have hcond : ¬((none : Option Package).isSome = true) := by simp
    refine ⟨{ files := [fname], pkgs := [], hasMain := false }, ?_, ?_, ?_⟩
    · rw [mapLookup_mapUpdate, if_pos rfl, if_neg hcond, mapLookup_append, hs]
      simp [mapLookup]
    · simp [filesOf, hs]
    · simp [pkgsOf, hs]

theorem mapLookup_HandleFile_ne (reg : Reg) (fname pkgname n : String)
    (imports : List String) (h : n ≠ pkgname) :
    mapLookup (HandleFile reg fname pkgname imports) n = mapLookup reg n := by
  unfold HandleFile
  rw [mapLookup_mapUpdate, if_neg h]
  cases hs : mapLookup reg pkgname with
  | some pkg =>
    have hcond : (some pkg : Option Package).isSome = true := rfl
    rw [if_pos hcond, mapLookup_mapUpdate, if_neg h]
  | none =>
    have hcond : ¬((none : Option Package).isSome = true) := by simp
    rw [if_neg hcond, mapLookup_append]
    cases hn : mapLookup reg n with
    | some v => rfl
    | none =>
      simp [mapLookup]
      exact fun he => h he.symm

theorem filesOf_HandleFile_self (reg : Reg) (fname pkgname : String)
    (imports : List String) :
    filesOf (HandleFile reg fname pkgname imports) pkgname = filesOf reg pkgname ++ [fname] := by
  obtain ⟨pkg0, h1, h2, _⟩ := mapLookup_HandleFile_self reg fname pkgname imports
  simp [filesOf, h1, files_foldl_addImport, h2]

theorem mem_pkgsOf_HandleFile_self (reg : Reg) (fname pkgname q : String)
    (imports : List String) :
    q ∈ pkgsOf (HandleFile reg fname pkgname imports) pkgname ↔
      q ∈ pkgsOf reg pkgname ∨ q ∈ imports := by
  obtain ⟨pkg0, h1, _, h3⟩ := mapLookup_HandleFile_self reg fname pkgname imports
  simp [pkgsOf, h1, mem_pkgs_foldl_addImport, h3]

theorem pkgsOf_HandleFile_ne (reg : Reg) (fname pkgname n : String)
    (imports : List String) (h : n ≠ pkgname) :
    pkgsOf (HandleFile reg fname pkgname imports) n = pkgsOf reg n := by
  simp [pkgsOf, mapLookup_HandleFile_ne reg fname pkgname n imports h]

theorem depsPart1_subset_PrintDeps (reg : Reg) (roots : List (String × String))
    (sn : Bool) (y : Line) (hy : y ∈ depsPart1 reg sn) : y ∈ PrintDeps reg roots sn := by
  cases h : mapLookup reg "main" with
  | none =>
    unfold PrintDeps
    rw [h]
    exact hy
  | some mainPkg =>
    rw [printDeps_eq roots sn h]
    exact List.mem_append.mpr (Or.inl (List.mem_append.mpr (Or.inl hy)))

theorem printDeps_none {reg : Reg} (roots : List (String × String)) (sn : Bool)
    (h : mapLookup reg "main" = none) : PrintDeps reg roots sn = depsPart1 reg sn := by
  unfold PrintDeps
  rw [h]

/-! Invariance of the emission passes under the registry iteration order. -/

theorem mapLookup_none_congr {α : Type} (m1 m2 : List (String × α)) (h : m1.Perm m2)
    (q : String) : mapLookup m1 q = none ↔ mapLookup m2 q = none := by
  rw [mapLookup_eq_none_iff, mapLookup_eq_none_iff]
  constructor
  · intro hh p hp
    exact hh p (h.symm.subset hp)
  · intro hh p hp
    exact hh p (h.subset hp)

theorem mapLookup_isSome_of_mem {α : Type} {m : List (String × α)} {k : String} {v : α}
    (h : (k, v) ∈ m) : ∃ w, mapLookup m k = some w := by
  induction m with
  | nil => simp at h
  | cons q rest ih =>
    obtain ⟨a, b⟩ := q
    by_cases ha : a = k
    · subst ha
      exact ⟨b, by simp [mapLookup]⟩
    · rcases List.mem_cons.mp h with he | hm
      · cases he
        exact absurd rfl ha
      · obtain ⟨w, hw⟩ := ih hm
        exact ⟨w, by simp [mapLookup, ha, hw]⟩

theorem mapLookup_isSome_congr {α : Type} (m1 m2 : List (String × α)) (h : m1.Perm m2)
    (q : String) : (mapLookup m1 q).isSome = (mapLookup m2 q).isSome := by
  cases h1 : mapLookup m1 q with
  | none => rw [(mapLookup_none_congr m1 m2 h q).mp h1]
  | some v =>
    obtain ⟨w, hw⟩ := mapLookup_isSome_of_mem (h.subset (mem_of_mapLookup h1))
    rw [hw]
    rfl

theorem mem_value_unique_of_nodupkeys {α : Type} {m : List (String × α)} {k : String}
    {v w : α} (hkeys : (m.map Prod.fst).Nodup) (hv : (k, v) ∈ m) (hw : (k, w) ∈ m) :
    v = w := by
  induction m with
  | nil => simp at hv
  | cons q rest ih =>
    obtain ⟨a, b⟩ := q
    rw [List.map_cons, List.nodup_cons] at hkeys
    rcases List.mem_cons.mp hv with he1 | hm1
    · cases he1
      rcases List.mem_cons.mp hw with he2 | hm2
      · cases he2
        rfl
      · exact absurd (List.mem_map.mpr ⟨(k, w), hm2, rfl⟩) hkeys.1
    · rcases List.mem_cons.mp hw with he2 | hm2
      · cases he2
        exact absurd (List.mem_map.mpr ⟨(k, v), hm1, rfl⟩) hkeys.1
      · exact ih hkeys.2 hm1 hm2

theorem mapLookup_congr_of_nodupkeys {α : Type} (m1 m2 : List (String × α))
    (h : m1.Perm m2) (hkeys : (m1.map Prod.fst).Nodup) (k : String) :
    mapLookup m1 k = mapLookup m2 k := by
  cases h1 : mapLookup m1 k with
  | none => rw [(mapLookup_none_congr m1 m2 h k).mp h1]
  | some v =>
    obtain ⟨w, hw⟩ := mapLookup_isSome_of_mem (h.subset (mem_of_mapLookup h1))
    have hvm : (k, v) ∈ m1 := mem_of_mapLookup h1
    have hwm : (k, w) ∈ m1 := h.symm.subset (mem_of_mapLookup hw)
    rw [hw, mem_value_unique_of_nodupkeys hkeys hvm hwm]

theorem pkgRuleOf_congr (reg1 reg2 : Reg) (sn : Bool) (h : reg1.Perm reg2)
    (p : String × Package) : pkgRuleOf reg1 sn p = pkgRuleOf reg2 sn p := by
  unfold pkgRuleOf
  congr 1
  apply List.filter_congr
  intro q _
  rw [mapLookup_isSome_congr reg1 reg2 h q]

theorem rootDeps_congr (reg1 reg2 : Reg) (pkgs : List String) (sn : Bool)
    (h : reg1.Perm reg2) : rootDeps reg1 pkgs sn = rootDeps reg2 pkgs sn := by
  unfold rootDeps
  have hstep :
      (fun (st : List String × List String) pkgname =>
        if (mapLookup reg1 pkgname).isSome ∨ (sn = true ∧ pkgname ∉ st.2) then
          (st.1 ++ [pkgname], st.2 ++ [pkgname])
        else st)
      = (fun (st : List String × List String) pkgname =>
        if (mapLookup reg2 pkgname).isSome ∨ (sn = true ∧ pkgname ∉ st.2) then
          (st.1 ++ [pkgname], st.2 ++ [pkgname])
        else st) := by
    funext st pkgname
    rw [mapLookup_isSome_congr reg1 reg2 h pkgname]
  rw [hstep]

theorem mem_depsPart1_congr (reg1 reg2 : Reg) (sn : Bool) (h : reg1.Perm reg2)
    (y : Line) : y ∈ depsPart1 reg1 sn ↔ y ∈ depsPart1 reg2 sn := by
  rw [mem_depsPart1, mem_depsPart1]
  constructor
  · rintro ⟨p, hp, hm, rfl⟩
    exact ⟨p, h.subset hp, hm, pkgRuleOf_congr reg1 reg2 sn h p⟩
  · rintro ⟨p, hp, hm, rfl⟩
    exact ⟨p, h.symm.subset hp, hm, (pkgRuleOf_congr reg1 reg2 sn h p).symm⟩

theorem mem_PrintDeps_congr (reg1 reg2 : Reg) (roots : List (String × String))
    (sn : Bool) (h : reg1.Perm reg2) (hkeys : (reg1.map Prod.fst).Nodup) (y : Line) :
    y ∈ PrintDeps reg1 roots sn ↔ y ∈ PrintDeps reg2 roots sn := by
  have hmain : mapLookup reg1 "main" = mapLookup reg2 "main" :=
    mapLookup_congr_of_nodupkeys reg1 reg2 h hkeys "main"
  cases hm1 : mapLookup reg1 "main" with
  | none =>
    have hm2 : mapLookup reg2 "main" = none := by rw [← hmain, hm1]
    rw [printDeps_none roots sn hm1, printDeps_none roots sn hm2]
    exact mem_depsPart1_congr reg1 reg2 sn h y
  | some mainPkg =>
    have hm2 : mapLookup reg2 "main" = some mainPkg := by rw [← hmain, hm1]
    rw [printDeps_eq roots sn hm1, printDeps_eq roots sn hm2,
      rootDeps_congr reg1 reg2 mainPkg.pkgs sn h]
    simp only [List.mem_append]
    constructor
    · rintro ((hz | hz) | hz)
      · exact Or.inl (Or.inl ((mem_depsPart1_congr reg1 reg2 sn h y).mp hz))
      · exact Or.inl (Or.inr hz)
      · exact Or.inr hz
    · rintro ((hz | hz) | hz)
      · exact Or.inl (Or.inl ((mem_depsPart1_congr reg1 reg2 sn h y).mpr hz))
      · exact Or.inl (Or.inr hz)
      · exact Or.inr hz

/-! Effect of FindMain on the roots map. -/

theorem mapLookup_findMain_fold (inputs : List (String × FileAnalysis))
    (files : List String) (roots0 : List (String × String)) (f : String) :
    mapLookup
      (files.foldl
        (fun roots fname => if wantsRoot inputs fname then addRoot roots fname else roots)
        roots0) f
    = if f ∈ files ∧ wantsRoot inputs f = true then some (baseNameOf f)
      else mapLookup roots0 f := by
  induction files generalizing roots0 with
  | nil => simp
  | cons a fs ih =>
    rw [List.foldl_cons, ih]
    by_cases hf : f ∈ fs ∧ wantsRoot inputs f = true
    · rw [if_pos hf, if_pos ⟨List.mem_cons_of_mem _ hf.1, hf.2⟩]
    · rw [if_neg hf]
      by_cases hfa : f = a
      · subst hfa
        by_cases hw : wantsRoot inputs f = true
        · rw [if_pos hw, if_pos ⟨List.mem_cons_self _ _, hw⟩]
          simp [addRoot, mapLookup_mapInsert_self]
        · rw [if_neg hw, if_neg (fun hc => hw hc.2)]
      · have houter : ¬(f ∈ a :: fs ∧ wantsRoot inputs f = true) := by
          rintro ⟨hmem, hwf⟩
          rcases List.mem_cons.mp hmem with rfl | hmem
          · exact hfa rfl
          · exact hf ⟨hmem, hwf⟩
        rw [if_neg houter]
        by_cases hw : wantsRoot inputs a = true
        · rw [if_pos hw]
          simp [addRoot, mapLookup_mapInsert_ne _ _ _ _ hfa]
        · rw [if_neg hw]

theorem mapLookup_FindMain {reg : Reg} {mainPkg : Package}
    (inputs : List (String × FileAnalysis)) (h : mapLookup reg "main" = some mainPkg)
    (f : String) :
    mapLookup (FindMain reg inputs) f =
      if f ∈ mainPkg.files ∧ wantsRoot inputs f = true then some (baseNameOf f)
      else none := by
  unfold FindMain
  rw [h, mapLookup_findMain_fold]
  rfl

/-! Behaviour of the registration loop of main. -/

theorem registerAll_error_of_bad (inputs : List (String × FileAnalysis)) (reg : Reg)
    (h : ∃ a, a ∈ inputs ∧ a.2.importsOk = false) :
    registerAll reg inputs = Except.error () := by
  induction inputs generalizing reg with
  | nil =>
    obtain ⟨a, ha, _⟩ := h
    simp at ha
  | cons b rest ih =>
    obtain ⟨fname, fa⟩ := b
    obtain ⟨a, ha, hbad⟩ := h
    unfold registerAll
    by_cases hok : fa.importsOk = true
    · rw [if_pos hok]
      rcases List.mem_cons.mp ha with rfl | ha
      · rw [hok] at hbad
        cases hbad
      · exact ih _ ⟨a, ha, hbad⟩
    · rw [if_neg hok]

theorem registerAll_ok_of_good (inputs : List (String × FileAnalysis)) (reg : Reg)
    (h : ∀ a ∈ inputs, a.2.importsOk = true) :
    ∃ r, registerAll reg inputs = Except.ok r := by
  induction inputs generalizing reg with
  | nil => exact ⟨reg, rfl⟩
  | cons b rest ih =>
    obtain ⟨fname, fa⟩ := b
    unfold registerAll
    rw [if_pos (h _ (List.mem_cons_self _ _))]
    exact ih _ (fun a ha => h a (List.mem_cons_of_mem _ ha))

/-! Membership of import targets accumulated over a registration sequence. -/

theorem mem_pkgsOf_registerFold (regs : List (String × String × List String))
    (reg : Reg) (n q : String) :
    q ∈ pkgsOf (regs.foldl (fun reg r => HandleFile reg r.1 r.2.1 r.2.2) reg) n ↔
      q ∈ pkgsOf reg n ∨ ∃ r, r ∈ regs ∧ r.2.1 = n ∧ q ∈ r.2.2 := by
  induction regs generalizing reg with
  | nil => simp
  | cons a rest ih =>
    rw [List.foldl_cons, ih]
    have hstep : q ∈ pkgsOf (HandleFile reg a.1 a.2.1 a.2.2) n ↔
        q ∈ pkgsOf reg n ∨ (a.2.1 = n ∧ q ∈ a.2.2) := by
      by_cases hn : n = a.2.1
      · subst hn
        rw [mem_pkgsOf_HandleFile_self]
        constructor
        · rintro (hq | hq)
          · exact Or.inl hq
          · exact Or.inr ⟨rfl, hq⟩
        · rintro (hq | ⟨_, hq⟩)
          · exact Or.inl hq
          · exact Or.inr hq
      · rw [pkgsOf_HandleFile_ne _ _ _ _ _ hn]
        constructor
        · exact Or.inl
        · rintro (hq | ⟨he, _⟩)
          · exact hq
          · exact absurd he.symm hn
    rw [hstep]
    constructor
    · rintro ((hq | ⟨he, hq⟩) | ⟨r, hr, hrn, hq⟩)
      · exact Or.inl hq
      · exact Or.inr ⟨a, List.mem_cons_self _ _, he, hq⟩
      · exact Or.inr ⟨r, List.mem_cons_of_mem _ hr, hrn, hq⟩
    · rintro (hq | ⟨r, hr, hrn, hq⟩)
      · exact Or.inl (Or.inl hq)
      · rcases List.mem_cons.mp hr with rfl | hr
        · exact Or.inl (Or.inr ⟨hrn, hq⟩)
        · exact Or.inr ⟨r, hr, hrn, hq⟩

/-- C2: one invocation of the external-dependency pass prints exactly the
set of import targets for which no package of that exact name is registered,
and prints each such target exactly once, no matter how many packages
reference it. -/
theorem C2_external_deps_exact_once (reg : Reg) :
    (PrintNeededItems reg).Nodup ∧
      ∀ t, t ∈ PrintNeededItems reg ↔
        (∃ p, p ∈ reg ∧ t ∈ p.2.pkgs) ∧ mapLookup reg t = none :=
  ⟨nodup_PrintNeededItems reg, fun t => mem_PrintNeededItems reg t⟩

/-- C3: the derived target name of a root is the prefix of the filename
before its first period: "main.go" yields "main", "app.v2.go" yields "app",
and a filename without a period yields the whole filename. -/
theorem C3_target_name_first_separator (f : String) :
    baseNameOf f = String.mk (f.data.takeWhile (fun c => c != '.')) ∧
    baseNameOf "main.go" = "main" ∧
    baseNameOf "app.v2.go" = "app" ∧
    (∀ g : String, (∀ c ∈ g.data, c ≠ '.') → baseNameOf g = g) := by
  have aux : ∀ l : List Char, (∀ c ∈ l, c ≠ '.') →
      l.takeWhile (fun c => c != '.') = l := by
    intro l hl
    induction l with
    | nil => rfl
    | cons c rest ih =>
      have hc : (c != '.') = true := by
        simp [hl c (List.mem_cons_self _ _)]
      rw [List.takeWhile_cons, if_pos hc,
        ih (fun d hd => hl d (List.mem_cons_of_mem _ hd))]
  refine ⟨baseNameOf_eq_takeWhile f, by decide, by decide, ?_⟩
  intro g hg
  rw [baseNameOf_eq_takeWhile g, aux g.data hg]

/-- C3 witness: a filename without a period maps to itself. -/
theorem C3_target_name_witness : baseNameOf "noext" = "noext" :=
  (C3_target_name_first_separator "noext").2.2.2 "noext" (by decide)

/-- C5 counterexample: with files f1.go and f3.go in package a discovered
around f2.go of package b, the full file list groups by package, so under
both iteration orders of this two-entry registry it differs from the
discovery order f1.go, f2.go, f3.go. -/
theorem C5_counterexample :
    PrintFListItems regInterleaved = ["f1.go", "f3.go", "f2.go"] ∧
    PrintFListItems regInterleaved.reverse = ["f2.go", "f1.go", "f3.go"] ∧
    PrintFListItems regInterleaved ≠ ["f1.go", "f2.go", "f3.go"] ∧
    PrintFListItems regInterleaved.reverse ≠ ["f1.go", "f2.go", "f3.go"] := by
  decide

/-- C5 (amended): the full-file-list pass emits every registered source unit
exactly once, deduplicated across packages and independent of how many
packages or imports reference it; the order groups units by registry entry
(each package in insertion order), which is not the global discovery order
when units of distinct packages interleave. -/
theorem C5_full_file_list_exact_once (reg : Reg) :
    (PrintFListItems reg).Nodup ∧
      ∀ f, f ∈ PrintFListItems reg ↔ ∃ p, p ∈ reg ∧ f ∈ p.2.files :=
  ⟨nodup_PrintFListItems reg, fun f => mem_PrintFListItems reg f⟩

/-- C8 counterexample: a file a.go declaring package foo and importing the
path "foo" (which path.Clean leaves unchanged) puts the name foo into the
own import set of package foo itself. -/
theorem C8_counterexample :
    "foo" ∈ pkgsOf (HandleFile [] "a.go" "foo" ["foo"]) "foo" := by
  decide

/-- C8 (amended): after any sequence of unit registrations, the import set of
a package contains the name of the package itself exactly when some
registered unit of that package imports that name; no self-reference
filtering is performed. -/
theorem C8_self_import_iff (regs : List (String × String × List String)) (pn : String) :
    pn ∈ pkgsOf (registerSeq regs) pn ↔
      ∃ r, r ∈ regs ∧ r.2.1 = pn ∧ pn ∈ r.2.2 := by
  unfold registerSeq
  rw [mem_pkgsOf_registerFold]
  simp [pkgsOf, mapLookup]

/-- C7 counterexample: regOrderA and regOrderB are permutations of each other
(the same registry contents under two iteration orders of the unordered map),
yet the text printed by the external-dependency pass differs, so the emitted
text is not a function of registry contents alone. -/
theorem C7_counterexample :
    regOrderA.Perm regOrderB ∧
      PrintNeeded "# external packages: " "" regOrderA ≠
        PrintNeeded "# external packages: " "" regOrderB := by
  constructor
  · unfold regOrderA regOrderB
    exact List.Perm.swap _ _ _
  · decide

/-- C7 (amended): for a fixed iteration order of the underlying maps two runs
print identical text. Under any two iteration orders of the same registry the
external-dependency pass and the file-list pass emit the same item sets, and
(for a registry whose package names are distinct, as in a Go map) the
dependency-rule pass emits the same set of rule lines; but the textual order
of the items follows the registry iteration order, and the import references
inside each emitted rule follow the inner import-map iteration order that the
rule lines embed, so the output text is not independent of map order. -/
theorem C7_item_sets_order_independent (reg1 reg2 : Reg)
    (roots : List (String × String)) (sn : Bool) (h : reg1.Perm reg2) :
    (∀ t, t ∈ PrintNeededItems reg1 ↔ t ∈ PrintNeededItems reg2) ∧
    (∀ f, f ∈ PrintFListItems reg1 ↔ f ∈ PrintFListItems reg2) ∧
    ((reg1.map Prod.fst).Nodup →
      ∀ y, y ∈ PrintDeps reg1 roots sn ↔ y ∈ PrintDeps reg2 roots sn) := by
  have hlook : ∀ t, mapLookup reg1 t = none ↔ mapLookup reg2 t = none := by
    intro t
    rw [mapLookup_eq_none_iff, mapLookup_eq_none_iff]
    constructor
    · intro hh p hp
      exact hh p (h.symm.subset hp)
    · intro hh p hp
      exact hh p (h.subset hp)
  refine ⟨?_, ?_, ?_⟩
  · intro t
    rw [mem_PrintNeededItems, mem_PrintNeededItems]
    constructor
    · rintro ⟨⟨p, hp, ht⟩, hn⟩
      exact ⟨⟨p, h.subset hp, ht⟩, (hlook t).mp hn⟩
    · rintro ⟨⟨p, hp, ht⟩, hn⟩
      exact ⟨⟨p, h.symm.subset hp, ht⟩, (hlook t).mpr hn⟩
  · intro f
    rw [mem_PrintFListItems, mem_PrintFListItems]
    constructor
    · rintro ⟨p, hp, hf⟩
      exact ⟨p, h.subset hp, hf⟩
    · rintro ⟨p, hp, hf⟩
      exact ⟨p, h.symm.subset hp, hf⟩
  · intro hkeys y
    exact mem_PrintDeps_congr reg1 reg2 roots sn h hkeys y

/-- C7 witness: the amended statement instantiated at the two iteration
orders of one concrete registry, including the dependency-rule pass. -/
theorem C7_item_sets_witness :
    ("x" ∈ PrintNeededItems regOrderA ↔ "x" ∈ PrintNeededItems regOrderB) ∧
    ("a.go" ∈ PrintFListItems regOrderA ↔ "a.go" ∈ PrintFListItems regOrderB) ∧
    (Line.pkgRule "a" ["a.go"] [] ∈ PrintDeps regOrderA [] false ↔
      Line.pkgRule "a" ["a.go"] [] ∈ PrintDeps regOrderB [] false) :=
  ⟨(C7_item_sets_order_independent regOrderA regOrderB [] false
      (by unfold regOrderA regOrderB; exact List.Perm.swap _ _ _)).1 "x",
   (C7_item_sets_order_independent regOrderA regOrderB [] false
      (by unfold regOrderA regOrderB; exact List.Perm.swap _ _ _)).2.1 "a.go",
   (C7_item_sets_order_independent regOrderA regOrderB [] false
      (by unfold regOrderA regOrderB; exact List.Perm.swap _ _ _)).2.2 (by decide)
     (Line.pkgRule "a" ["a.go"] [])⟩

/-- C6 counterexample: a.go, the single input, of package main passes the
first, ImportsOnly parse, but the second, full parse inside FindMain fails
(fullOk is false, mirroring the discarded error of that ParseFile call); the
run still succeeds and prints every pass, instead of aborting silently. -/
theorem C6_counterexample :
    run inputsFullFail false =
      Except.ok
        { externalLine := none
          commentLine := "# external packages: \n"
          fileLine := "GOFILES = a.go \n"
          deps := [] } := by
  rfl

/-- C6 (amended): a failure of the initial imports-only parse of any input
unit makes the run exit with a non-zero outcome and no output at all, while
a run whose imports-only parses all succeed always produces output; a
failure of the secondary full parse during root classification is discarded
and never aborts the run. -/
theorem C6_parse_failure_aborts (inputs : List (String × FileAnalysis)) (sn : Bool) :
    ((∃ a, a ∈ inputs ∧ a.2.importsOk = false) → run inputs sn = Except.error ()) ∧
    ((∀ a ∈ inputs, a.2.importsOk = true) → ∃ out, run inputs sn = Except.ok out) := by
  constructor
  · intro h
    unfold run
    rw [registerAll_error_of_bad inputs [] h]
  · intro h
    obtain ⟨r, hr⟩ := registerAll_ok_of_good inputs [] h
    unfold run
    rw [hr]
    exact ⟨_, rfl⟩

/-- C6 witness: the failing imports-only parse aborts the concrete run with
no output, and the input whose only failure is the second full parse runs to
completion. -/
theorem C6_parse_failure_witness :
    run inputsBad false = Except.error () ∧
    ∃ out, run inputsFullFail false = Except.ok out :=
  ⟨(C6_parse_failure_aborts inputsBad false).1 (by decide),
   (C6_parse_failure_aborts inputsFullFail false).2 (by decide)⟩

/-- C4: for every registered package other than main, PrintDeps emits a rule
listing all member units of the package and, for each of its import targets,
the target when its package is registered; an unregistered target appears in
the rule exactly when show-needed is set. -/
theorem C4_package_rule (reg : Reg) (roots : List (String × String)) (sn : Bool)
    (p : String × Package) (hp : p ∈ reg) (hm : p.1 ≠ "main") :
    Line.pkgRule p.1 p.2.files
        (p.2.pkgs.filter (fun q => (mapLookup reg q).isSome || sn)) ∈
      PrintDeps reg roots sn ∧
    (∀ q, q ∈ p.2.pkgs.filter (fun q2 => (mapLookup reg q2).isSome || sn) →
      q ∈ p.2.pkgs) ∧
    (∀ q, q ∈ p.2.pkgs → (mapLookup reg q).isSome = true →
      q ∈ p.2.pkgs.filter (fun q2 => (mapLookup reg q2).isSome || sn)) ∧
    (∀ q, q ∈ p.2.pkgs → mapLookup reg q = none →
      (q ∈ p.2.pkgs.filter (fun q2 => (mapLookup reg q2).isSome || sn) ↔ sn = true)) := by
  refine ⟨?_, ?_, ?_, ?_⟩
  · refine depsPart1_subset_PrintDeps reg roots sn _ ?_
    exact (mem_depsPart1 reg sn _).mpr ⟨p, hp, hm, rfl⟩
  · intro q hq
    exact (List.mem_filter.mp hq).1
  · intro q hq hreg
    exact List.mem_filter.mpr ⟨hq, by simp [hreg]⟩
  · intro q hq hreg
    rw [List.mem_filter]
    simp [hq, hreg]

/-- C4 witness: the rule of the package util lists both member units and the
registered import dep, while the unregistered import ext is omitted because
show-needed is unset. -/
theorem C4_package_rule_witness :
    Line.pkgRule "util" ["u1.go", "u2.go"] ["dep"] ∈ PrintDeps regLibW [] false :=
  (C4_package_rule regLibW [] false
      ("util", { files := ["u1.go", "u2.go"], pkgs := ["dep", "ext"], hasMain := false })
      (by decide) (by decide)).1

/-- C1: when the entry-point package main is registered, PrintDeps treats
every unit of it not recorded in roots as Common; every root file gets a rule
referencing its own file and the whole common list; and a root rule is never
emitted for a common file, two roots thus sharing every common file. -/
theorem C1_root_common_partition (reg : Reg) (roots : List (String × String))
    (sn : Bool) (mainPkg : Package) (h : mapLookup reg "main" = some mainPkg) :
    (∀ f app, f ∈ mainPkg.files → mapLookup roots f = some app →
        Line.rootRule app f
          (mainPkg.files.filter (fun c => (mapLookup roots c).isNone))
          (rootDeps reg mainPkg.pkgs sn) ∈ PrintDeps reg roots sn) ∧
    (∀ c, c ∈ mainPkg.files →
        (c ∈ mainPkg.files.filter (fun c2 => (mapLookup roots c2).isNone) ↔
          mapLookup roots c = none)) ∧
    (∀ app f com deps, Line.rootRule app f com deps ∈ PrintDeps reg roots sn →
        mapLookup roots f = some app ∧ f ∈ mainPkg.files ∧
        com = mainPkg.files.filter (fun c => (mapLookup roots c).isNone)) ∧
    (∀ f1 f2 a1 a2 c, f1 ∈ mainPkg.files → f2 ∈ mainPkg.files →
        mapLookup roots f1 = some a1 → mapLookup roots f2 = some a2 →
        c ∈ mainPkg.files → mapLookup roots c = none →
        ∃ com1 d1 com2 d2,
          Line.rootRule a1 f1 com1 d1 ∈ PrintDeps reg roots sn ∧ c ∈ com1 ∧
          Line.rootRule a2 f2 com2 d2 ∈ PrintDeps reg roots sn ∧ c ∈ com2) := by
  have hcom : ∀ c, c ∈ mainPkg.files → mapLookup roots c = none →
      c ∈ mainPkg.files.filter (fun c2 => (mapLookup roots c2).isNone) := by
    intro c hc hcn
    exact List.mem_filter.mpr ⟨hc, by simp [hcn]⟩
  refine ⟨?_, ?_, ?_, ?_⟩
  · intro f app hf ha
    exact rootRule_mem_PrintDeps roots sn h hf ha
  · intro c hc
    rw [List.mem_filter]
    simp [hc, Option.isNone_iff_eq_none]
  · intro app f com deps hmem
    obtain ⟨h1, h2, h3, _⟩ := rootRule_mem_PrintDeps_inv h hmem
    exact ⟨h2, h1, h3⟩
  · intro f1 f2 a1 a2 c hf1 hf2 ha1 ha2 hc hcn
    exact ⟨_, _, _, _,
      rootRule_mem_PrintDeps roots sn h hf1 ha1, hcom c hc hcn,
      rootRule_mem_PrintDeps roots sn h hf2 ha2, hcom c hc hcn⟩

/-- C1 witness: in a main package with roots m1.go and m2.go around the
common file shared.go, the root rule of m1 references its own file and the
shared common file. -/
theorem C1_root_common_partition_witness :
    Line.rootRule "m1" "m1.go" ["shared.go"] [] ∈ PrintDeps regMainW rootsMainW false :=
  (C1_root_common_partition regMainW rootsMainW false
      { files := ["m1.go", "shared.go", "m2.go"], pkgs := ["fmt"], hasMain := false }
      (by decide)).1 "m1.go" "m1" (by decide) (by decide)

/-- C9: two distinct files of the main package that both declare the entry
function and share the filename prefix before the first period are recorded
as separate roots keyed by filename, their derived target names coincide,
and PrintDeps emits two distinct root rules bearing that same target name. -/
theorem C9_duplicate_target_names (reg : Reg) (inputs : List (String × FileAnalysis))
    (sn : Bool) (mainPkg : Package) (f1 f2 : String)
    (h : mapLookup reg "main" = some mainPkg)
    (h1 : f1 ∈ mainPkg.files) (h2 : f2 ∈ mainPkg.files) (hne : f1 ≠ f2)
    (hw1 : wantsRoot inputs f1 = true) (hw2 : wantsRoot inputs f2 = true)
    (hb : baseNameOf f1 = baseNameOf f2) :
    mapLookup (FindMain reg inputs) f1 = some (baseNameOf f1) ∧
    mapLookup (FindMain reg inputs) f2 = some (baseNameOf f1) ∧
    (∃ com deps,
      Line.rootRule (baseNameOf f1) f1 com deps ∈
          PrintDeps reg (FindMain reg inputs) sn ∧
      Line.rootRule (baseNameOf f1) f2 com deps ∈
          PrintDeps reg (FindMain reg inputs) sn ∧
      Line.rootRule (baseNameOf f1) f1 com deps ≠
          Line.rootRule (baseNameOf f1) f2 com deps) := by
  have hl1 : mapLookup (FindMain reg inputs) f1 = some (baseNameOf f1) := by
    rw [mapLookup_FindMain inputs h, if_pos (⟨h1, hw1⟩ : f1 ∈ mainPkg.files ∧ _)]
  have hl2 : mapLookup (FindMain reg inputs) f2 = some (baseNameOf f1) := by
    rw [mapLookup_FindMain inputs h, if_pos (⟨h2, hw2⟩ : f2 ∈ mainPkg.files ∧ _), hb]
  refine ⟨hl1, hl2, _, _, rootRule_mem_PrintDeps _ sn h h1 hl1,
    rootRule_mem_PrintDeps _ sn h h2 hl2, by simp [hne]⟩

/-- C9 witness: main.go and main.v2.go both declare the entry function; both
are roots, both derive the target name of main.go, and two distinct root
rules with that one target name are emitted. -/
theorem C9_duplicate_target_names_witness :
    mapLookup (FindMain regDup inputsDup) "main.go" = some (baseNameOf "main.go") ∧
    mapLookup (FindMain regDup inputsDup) "main.v2.go" = some (baseNameOf "main.go") ∧
    (∃ com deps,
      Line.rootRule (baseNameOf "main.go") "main.go" com deps ∈
          PrintDeps regDup (FindMain regDup inputsDup) false ∧
      Line.rootRule (baseNameOf "main.go") "main.v2.go" com deps ∈
          PrintDeps regDup (FindMain regDup inputsDup) false ∧
      Line.rootRule (baseNameOf "main.go") "main.go" com deps ≠
          Line.rootRule (baseNameOf "main.go") "main.v2.go" com deps) :=
  C9_duplicate_target_names regDup inputsDup false
    { files := ["main.go", "main.v2.go"], pkgs := [], hasMain := false }
    "main.go" "main.v2.go" (by decide) (by decide) (by decide) (by decide)
    (by decide) (by decide) (by decide)

/-- C10: supplying the same filename twice appends it twice to its package's
unit sequence; the file list still prints it exactly once, the rule of a
non-main package references it twice, and when the package is main, the
common list of every emitted root rule references it twice. -/
theorem C10_duplicate_registration (reg : Reg) (roots : List (String × String))
    (sn : Bool) (f pn : String) (imports : List String)
    (hfresh : ∀ p, p ∈ reg → f ∉ p.2.files) :
    filesOf (HandleFile (HandleFile reg f pn imports) f pn imports) pn =
        filesOf reg pn ++ [f, f] ∧
    (PrintFListItems (HandleFile (HandleFile reg f pn imports) f pn imports)).count f
        = 1 ∧
    (pn ≠ "main" →
      ∃ deps,
        Line.pkgRule pn (filesOf reg pn ++ [f, f]) deps ∈
          PrintDeps (HandleFile (HandleFile reg f pn imports) f pn imports) roots sn) ∧
    (pn = "main" → mapLookup roots f = none →
      ∀ app g com deps,
        Line.rootRule app g com deps ∈
            PrintDeps (HandleFile (HandleFile reg f pn imports) f pn imports) roots sn →
        com.count f = 2) := by
  have hfiles : filesOf (HandleFile (HandleFile reg f pn imports) f pn imports) pn =
      filesOf reg pn ++ [f, f] := by
    rw [filesOf_HandleFile_self, filesOf_HandleFile_self, List.append_assoc]
    rfl
  obtain ⟨pkg1, hl1, _, _⟩ :=
    mapLookup_HandleFile_self (HandleFile reg f pn imports) f pn imports
  have hpkg2 : mapLookup (HandleFile (HandleFile reg f pn imports) f pn imports) pn =
      some (imports.foldl addImport pkg1) := hl1
  have hfilespkg : (imports.foldl addImport pkg1).files = filesOf reg pn ++ [f, f] := by
    have := hfiles
    rw [filesOf, hpkg2] at this
    simpa using this
  have hmem2 : (pn, imports.foldl addImport pkg1) ∈
      HandleFile (HandleFile reg f pn imports) f pn imports := mem_of_mapLookup hpkg2
  have hnot : f ∉ filesOf reg pn := by
    cases hl : mapLookup reg pn with
    | none => simp [filesOf, hl]
    | some pkg =>
      have : (pn, pkg) ∈ reg := mem_of_mapLookup hl
      simpa [filesOf, hl] using hfresh _ this
  refine ⟨hfiles, ?_, ?_, ?_⟩
  · refine List.count_eq_one_of_mem
      (nodup_PrintFListItems _) ?_
    refine (mem_PrintFListItems _ f).mpr ⟨(pn, imports.foldl addImport pkg1), hmem2, ?_⟩
    rw [hfilespkg]
    simp
  · intro hm
    refine ⟨(imports.foldl addImport pkg1).pkgs.filter
      (fun q => (mapLookup (HandleFile (HandleFile reg f pn imports) f pn imports) q).isSome
        || sn), ?_⟩
    have hrule := (mem_depsPart1
        (HandleFile (HandleFile reg f pn imports) f pn imports) sn _).mpr
      ⟨(pn, imports.foldl addImport pkg1), hmem2, hm, rfl⟩
    have := depsPart1_subset_PrintDeps
      (HandleFile (HandleFile reg f pn imports) f pn imports) roots sn _ hrule
    rw [pkgRuleOf] at this
    rw [← hfilespkg]
    exact this
  · rintro rfl hcn app g com deps hmem
    obtain ⟨_, _, hcom, _⟩ := rootRule_mem_PrintDeps_inv hpkg2 hmem
    rw [hcom, hfilespkg]
    rw [List.filter_append, List.count_append]
    have hz : (List.count f ((filesOf reg "main").filter
        (fun c => (mapLookup roots c).isNone))) = 0 := by
      refine List.count_eq_zero_of_not_mem ?_
      intro hmf
      exact hnot (List.mem_filter.mp hmf).1
    rw [hz]
    simp [List.filter_cons, hcn, List.count_cons]

/-- C10 witness: registering util.go twice into the main package that already
holds the root root.go: the unit list holds it twice, the file list prints it
once, and the common list of the root rule of root.go references it twice. -/
theorem C10_duplicate_registration_witness :
    filesOf (HandleFile (HandleFile regRootOnly "util.go" "main" []) "util.go" "main" [])
        "main" = ["root.go", "util.go", "util.go"] ∧
    (PrintFListItems
        (HandleFile (HandleFile regRootOnly "util.go" "main" []) "util.go" "main" [])).count
        "util.go" = 1 ∧
    (["util.go", "util.go"] : List String).count "util.go" = 2 :=
  ⟨(C10_duplicate_registration regRootOnly rootsRootOnly false "util.go" "main" []
      (by decide)).1,
   (C10_duplicate_registration regRootOnly rootsRootOnly false "util.go" "main" []
      (by decide)).2.1,
   (C10_duplicate_registration regRootOnly rootsRootOnly false "util.go" "main" []
      (by decide)).2.2.2 rfl (by decide) "root" "root.go" ["util.go", "util.go"] []
      (by decide)⟩

end Godep
